import Mathlib

/-!
# Verification of the json-shake core (URL extraction and size-constrained re-encoding)

Shallow embedding of `main.go` of SteamedBread2333/json-shake.

* `findAllMatches` embeds `imageURLPattern.FindAllString(v, -1)` where
  `imageURLPattern = https?://[^\s"'<>]+\.(?:jpg|jpeg|png|gif|bmp|webp|svg)(?:\?[^\s"'<>]*)?`,
  following Go's (Perl-style, leftmost-first, greedy) matching semantics
  specialised to this pattern.
* `isPossibleImageURL` embeds the heuristic of the same name.
* `Json` / `extract` embed the generic JSON value and `extractImageURLs`.
* `compressImage` embeds the quality-ladder re-encoder, parameterised by a
  `Codec` standing for the `image.Decode` / `jpeg.Encode` library routines.
-/

/-- Go regexp's `\s` character class is exactly `[\t\n\f\r ]`. -/
def isSpaceGo (c : Char) : Bool :=
  c == ' ' || c == '\t' || c == '\n' || c == '\x0c' || c == '\r'

/-- The character class `[^\s"'<>]` used both for the URL body and the query. -/
def urlChar (c : Char) : Bool :=
  !(isSpaceGo c || c == '"' || c == '\'' || c == '<' || c == '>')

/-- `startsWithL pre cs` embeds `strings.HasPrefix(cs, pre)`. -/
def startsWithL : List Char → List Char → Bool
  | [], _ => true
  | _ :: _, [] => false
  | p :: ps, c :: cs => p == c && startsWithL ps cs

/-- The characters of `"https://"`. -/
def schemeHttps : List Char := "https://".data

/-- The characters of `"http://"`. -/
def schemeHttp : List Char := "http://".data

/-- The alternation `(?:jpg|jpeg|png|gif|bmp|webp|svg)` in source order. -/
def extAlternatives : List (List Char) :=
  ["jpg".data, "jpeg".data, "png".data, "gif".data, "bmp".data, "webp".data, "svg".data]

/-- Length of the maximal prefix of characters satisfying `p` (a greedy `*`). -/
def countWhile (p : Char → Bool) : List Char → Nat
  | [] => 0
  | c :: rest => if p c then 1 + countWhile p rest else 0

/-- Number of characters consumed by the greedy optional query part
`(?:\?[^\s"'<>]*)?` of the pattern. -/
def matchQuery : List Char → Nat
  | '?' :: rest => 1 + countWhile urlChar rest
  | _ => 0

/-- Characters consumed by `(?:jpg|jpeg|png|gif|bmp|webp|svg)(?:\?...)?` at the
head of the input, trying alternatives in source order (the pattern ends after
the optional query, so the first alternative that is a literal prefix wins). -/
def matchExtQAux : List (List Char) → List Char → Option Nat
  | [], _ => none
  | e :: es, cs =>
    if startsWithL e cs then some (e.length + matchQuery (cs.drop e.length))
    else matchExtQAux es cs

/-- See `matchExtQAux`. -/
def matchExtQ (cs : List Char) : Option Nat := matchExtQAux extAlternatives cs

/-- Characters consumed by `[^\s"'<>]*\.(?:ext)(?:\?...)?` at the head of the
input, with the greedy/backtracking preference of a leftmost-first engine:
consuming another body character is preferred, and on failure the literal dot
branch is tried (`.` itself lies inside the body class). -/
def matchBody : List Char → Option Nat
  | [] => none
  | c :: rest =>
    match (if urlChar c then (matchBody rest).map (· + 1) else none) with
    | some n => some n
    | none =>
      if c == '.' then (matchExtQ rest).map (· + 1) else none

/-- Characters consumed by `[^\s"'<>]+\.(?:ext)(?:\?...)?` (the `+` forces one
body character before delegating to `matchBody`). -/
def matchPlusBody : List Char → Option Nat
  | [] => none
  | c :: rest => if urlChar c then (matchBody rest).map (· + 1) else none

/-- Length of the match of the full `imageURLPattern` anchored at the head of
the input, if any. `https?://` tries the `s` of the optional `s?` first. -/
def matchAt (cs : List Char) : Option Nat :=
  if startsWithL schemeHttps cs then (matchPlusBody (cs.drop 8)).map (· + 8)
  else if startsWithL schemeHttp cs then (matchPlusBody (cs.drop 7)).map (· + 7)
  else none

/-- Scan for all leftmost, non-overlapping matches, resuming after each match
end. The fuel equals the input length; every step consumes at least one
character (a match is never empty for this pattern, and `max n 1` only guards
the impossible empty-match case, where Go would advance by one). -/
def findAllAux : Nat → List Char → List (List Char)
  | 0, _ => []
  | _, [] => []
  | fuel + 1, c :: rest =>
    match matchAt (c :: rest) with
    | some n => (c :: rest).take n :: findAllAux fuel ((c :: rest).drop (max n 1))
    | none => findAllAux fuel rest

/-- Embeds `imageURLPattern.FindAllString(s, -1)`. -/
def findAllMatches (cs : List Char) : List (List Char) := findAllAux cs.length cs

/-- Embeds `imageURLPattern.MatchString(s)`: whether any match exists. -/
def matchString (cs : List Char) : Bool := !(findAllMatches cs).isEmpty

/-- Control bytes rejected by `net/url.Parse`. -/
def isCtl (c : Char) : Bool := c.toNat < 32 || c.toNat == 127

/-- ASCII hexadecimal digit. -/
def isHexDigitC (c : Char) : Bool :=
  ('0' ≤ c && c ≤ '9') || ('a' ≤ c && c ≤ 'f') || ('A' ≤ c && c ≤ 'F')

/-- Every `%` is followed by two hexadecimal digits (percent-escape validity,
as checked by `net/url`'s `unescape`). -/
def validEscapes : List Char → Bool
  | [] => true
  | '%' :: a :: b :: rest => isHexDigitC a && isHexDigitC b && validEscapes rest
  | '%' :: _ => false
  | _ :: rest => validEscapes rest

/-- Split at the first occurrence of `sep`: `(before, after)`, the separator
dropped; `(cs, [])` when absent. -/
def splitAtFirst (sep : Char) : List Char → List Char × List Char
  | [] => ([], [])
  | c :: rest =>
    if c == sep then ([], rest)
    else
      let (b, a) := splitAtFirst sep rest
      (c :: b, a)

/-- Split at the last occurrence of `sep`, if present. -/
def splitAtLast (sep : Char) (cs : List Char) : Option (List Char × List Char) :=
  match cs with
  | [] => none
  | c :: rest =>
    match splitAtLast sep rest with
    | some (b, a) => some (c :: b, a)
    | none => if c == sep then some ([], rest) else none

/-- Digits only (a valid optional port, possibly empty). -/
def allDigits (cs : List Char) : Bool := cs.all fun c => '0' ≤ c && c ≤ '9'

/-- Numeric value of a hexadecimal digit (`unhex` in `net/url`). -/
def hexVal (c : Char) : Nat :=
  if '0' ≤ c && c ≤ '9' then c.toNat - '0'.toNat
  else if 'a' ≤ c && c ≤ 'f' then c.toNat - 'a'.toNat + 10
  else if 'A' ≤ c && c ≤ 'F' then c.toNat - 'A'.toNat + 10
  else 0

/-- The characters `net/url`'s `shouldEscape` leaves unescaped in a host
component: ASCII alphanumerics, the sub-delims plus `: [ ] < > "`, and
`- _ . ~`; non-ASCII runes pass through raw. A plain ASCII character outside
this set makes `unescape(host, encodeHost)` fail. -/
def validHostChar (c : Char) : Bool :=
  if c.toNat ≥ 128 then true
  else
    ('a' ≤ c && c ≤ 'z') || ('A' ≤ c && c ≤ 'Z') || ('0' ≤ c && c ≤ '9') ||
    c == '!' || c == '$' || c == '&' || c == '\'' || c == '(' || c == ')' ||
    c == '*' || c == '+' || c == ',' || c == ';' || c == '=' || c == ':' ||
    c == '[' || c == ']' || c == '<' || c == '>' || c == '"' ||
    c == '-' || c == '_' || c == '.' || c == '~'

/-- `unescape(host, encodeHost)` of `net/url`: every `%` must begin a valid
hex escape that is either the literal `%25` or encodes a non-ASCII byte
(first hex digit at least 8), and every plain ASCII character must be
acceptable in a host (`shouldEscape`). IPv6 zone identifiers are validated
with these same host rules. -/
def validHostL : List Char → Bool
  | [] => true
  | '%' :: a :: b :: rest =>
    isHexDigitC a && isHexDigitC b && (hexVal a ≥ 8 || (a == '2' && b == '5')) &&
      validHostL rest
  | '%' :: _ => false
  | c :: rest => validHostChar c && validHostL rest

/-- The character set accepted by `net/url`'s `validUserinfo` (RFC 3986
userinfo octets, `%` included — its escapes are checked separately). -/
def validUserinfoChar (c : Char) : Bool :=
  ('a' ≤ c && c ≤ 'z') || ('A' ≤ c && c ≤ 'Z') || ('0' ≤ c && c ≤ '9') ||
  c == '-' || c == '.' || c == '_' || c == ':' || c == '~' || c == '!' ||
  c == '$' || c == '&' || c == '\'' || c == '(' || c == ')' || c == '*' ||
  c == '+' || c == ',' || c == ';' || c == '=' || c == '%' || c == '@'

/-- Userinfo validity: `validUserinfo` plus hex-valid percent escapes
(`unescape(..., encodeUserPassword)` checks hex only). -/
def validUserinfoL (cs : List Char) : Bool :=
  cs.all validUserinfoChar && validEscapes cs

/-- `parseHost` of `net/url`: a `[`-led host needs a closing `]` followed by
nothing or `:digits`; otherwise an optional `:port` after the last colon must
be all digits; in both shapes the whole host string must satisfy the
`encodeHost` unescape rules. -/
def parseHostOk (host : List Char) : Bool :=
  match host with
  | '[' :: hrest =>
    (match splitAtLast ']' hrest with
     | none => false
     | some (_, after) =>
       match after with
       | [] => true
       | ':' :: port => allDigits port
       | _ => false) && validHostL host
  | _ =>
    (match splitAtLast ':' host with
     | some (_, port) => allDigits port
     | none => true) && validHostL host

/-- Models `url.Parse(s) == nil`-error-ness. For the `http://`/`https://`
strings this program passes it (the `HasPrefix` test precedes the call), the
model follows `net/url.Parse`: reject ASCII control characters anywhere;
validate percent-escapes in the fragment, path and userinfo; validate the
userinfo character set (`validUserinfo`), the host character set and the
host-only `%`-escape restriction (`unescape` with `encodeHost`: only `%25` or
escapes of non-ASCII bytes), and a numeric optional port; the query is stored
raw and never validated. A string without the scheme prefix — which the
program never feeds to `url.Parse`, and which `Parse` treats as an opaque or
rootless path — is checked for control bytes and escape validity only. -/
def urlParseOk (cs : List Char) : Bool :=
  if cs.any isCtl then false
  else
    let (beforeFrag, frag) := splitAtFirst '#' cs
    if !validEscapes frag then false
    else
      let (beforeQuery, _) := splitAtFirst '?' beforeFrag
      if startsWithL schemeHttps beforeQuery || startsWithL schemeHttp beforeQuery then
        let rest :=
          if startsWithL schemeHttps beforeQuery then beforeQuery.drop 8
          else beforeQuery.drop 7
        let (authority, path) := splitAtFirst '/' rest
        if !validEscapes path then false
        else
          match splitAtLast '@' authority with
          | some (userinfo, host) => validUserinfoL userinfo && parseHostOk host
          | none => parseHostOk authority
      else
        validEscapes beforeQuery

/-- One rune of `strings.ToLower` (Unicode *simple* lowercase mapping,
applied rune-wise): ASCII letters are lowered, and U+0130 (LATIN CAPITAL
LETTER I WITH DOT ABOVE) and U+212A (KELVIN SIGN) — the only two code points
whose simple lowercase mapping lands in ASCII — map to `i` and `k`. Every
other non-ASCII rune is left unchanged here; its true lowercase is again
non-ASCII, and because `imageKeywords` and `strings.Contains` work on pure
ASCII needles (whose bytes never occur inside a multi-byte UTF-8 rune), that
difference can neither create nor destroy a keyword occurrence. -/
def toLowerGo (c : Char) : Char :=
  if 'A' ≤ c && c ≤ 'Z' then Char.ofNat (c.toNat + 32)
  else if c.toNat == 0x130 then 'i'
  else if c.toNat == 0x212A then 'k'
  else c

/-- Embeds `strings.ToLower` (see `toLowerGo`). -/
def toLowerL (cs : List Char) : List Char := cs.map toLowerGo

/-- Embeds `strings.Contains(hay, needle)`. -/
def containsL (needle : List Char) : List Char → Bool
  | [] => needle.isEmpty
  | c :: rest => startsWithL needle (c :: rest) || containsL needle rest

/-- The `imageKeywords` list of `isPossibleImageURL`, in source order. -/
def imageKeywords : List (List Char) :=
  ["image".data, "img".data, "photo".data, "picture".data, "pic".data,
   "avatar".data, "thumbnail".data, "thumb".data, "banner".data, "gallery".data]

/-- The keyword loop of `isPossibleImageURL`: some keyword occurs in the
lowercased string. -/
def hasKeyword (cs : List Char) : Bool :=
  imageKeywords.any fun k => containsL k (toLowerL cs)

/-- Embeds `isPossibleImageURL`. -/
def isPossibleImageURL (cs : List Char) : Bool :=
  if matchString cs then true
  else if !(startsWithL schemeHttp cs) && !(startsWithL schemeHttps cs) then false
  else if !(urlParseOk cs) then false
  else hasKeyword cs

mutual
/-- The generic JSON value (`interface{}` after `json.Unmarshal`): object,
array, string, number, boolean, null. -/
inductive Json where
  | str (s : List Char) : Json
  | num (n : Int) : Json
  | bool (b : Bool) : Json
  | null : Json
  | arr (items : JsonArr) : Json
  | obj (entries : JsonObj) : Json

/-- A JSON array, as its own list-like type so that recursion over the nested
structure is plainly structural. -/
inductive JsonArr where
  | nil : JsonArr
  | cons (head : Json) (tail : JsonArr) : JsonArr

/-- A JSON object: an ordered sequence of key/value entries (the order stands
for one particular iteration order of the Go map). -/
inductive JsonObj where
  | nil : JsonObj
  | cons (key : List Char) (val : Json) (tail : JsonObj) : JsonObj
end

/-- The `case string` body of `extractImageURLs`: append all explicit matches;
if there are none and the heuristic accepts the string, append the whole
string. -/
def extractStr (s : List Char) : List (List Char) :=
  findAllMatches s ++
    (if (findAllMatches s).isEmpty && isPossibleImageURL s then [s] else [])

mutual
/-- Embeds `extractImageURLs` (the shared `*urls` accumulator becomes list
concatenation in traversal order). -/
def extract : Json → List (List Char)
  | .str s => extractStr s
  | .num _ => []
  | .bool _ => []
  | .null => []
  | .arr l => extractArr l
  | .obj l => extractObj l
termination_by structural t => t

/-- Array clause of `extractImageURLs`. -/
def extractArr : JsonArr → List (List Char)
  | .nil => []
  | .cons v rest => extract v ++ extractArr rest
termination_by structural l => l

/-- Object clause of `extractImageURLs`. -/
def extractObj : JsonObj → List (List Char)
  | .nil => []
  | .cons _ v rest => extract v ++ extractObj rest
termination_by structural l => l
end

example : findAllMatches "see https://a.com/x.png and https://b.com/y.jpg?z=1 here".data =
    ["https://a.com/x.png".data, "https://b.com/y.jpg?z=1".data] := by decide

example : extract (Json.str "https://cdn.example.com/assets/AbC123".data) = [] := by decide

example : extract (Json.str "https://cdn.example.com/avatar/AbC123".data) =
    ["https://cdn.example.com/avatar/AbC123".data] := by decide

/-! ## Size-constrained re-encoder (`compressImage`) -/

/-- Raw image bytes (`[]byte`). -/
abbrev Bytes := List Nat

/-- The image library routines `compressImage` calls, abstracted: `decode`
embeds `image.Decode`, which reads the byte content only (format sniffing by
signature, never by file name) and either fails (`none`) or yields the decoded
image and the registered format name; `encode` embeds
`jpeg.Encode(&buf, img, &jpeg.Options{Quality: q})`, yielding the bytes
written into the buffer together with whether the encode returned a nil
error. -/
structure Codec (Img : Type) where
  decode : Bytes → Option (Img × String)
  encode : Img → Nat → Bytes × Bool

/-- The `qualities` slice of `compressImage`. -/
def qualityLadder : List Nat := [85, 75, 65, 55, 45, 35, 25]

/-- Format of the bytes `compressImage` returns: the untouched input
(`original`) on the early-return and unsupported-format paths, or a fresh
JPEG encode (`jpeg`). -/
inductive OutFormat where
  | original : OutFormat
  | jpeg : OutFormat
deriving DecidableEq

/-- The formats the `switch format` statement re-encodes (every other format
hits the `default` branch and is returned unchanged). -/
def isRasterFormat (fmt : String) : Bool :=
  fmt == "jpeg" || fmt == "jpg" || fmt == "png" || fmt == "gif"

/-- The `for _, quality := range qualities` loop for a raster format: a failed
encode is skipped (`continue`); the first successful encode whose size fits
the limit is returned at once. -/
def runLadder {Img : Type} (C : Codec Img) (img : Img) (limitBytes : Nat) :
    List Nat → Option Bytes
  | [] => none
  | q :: rest =>
    let r := C.encode img q
    if r.2 = true ∧ r.1.length ≤ limitBytes then some r.1
    else runLadder C img limitBytes rest

/-- Embeds `compressImage(data, limitMB)` with `limitBytes =
int64(limitMB * 1024 * 1024)` already computed. The format dispatch sits
inside the loop in the source, but the format is loop-invariant and the
ladder is non-empty, so lifting it out is behaviour-preserving; the final
quality-20 encode's error is discarded by the source (`jpeg.Encode(&buf, ...)`
with no error check), so its buffer is returned with a nil error even when
the encode failed. -/
def compressImage {Img : Type} (C : Codec Img) (data : Bytes) (limitBytes : Nat) :
    Except String (Bytes × OutFormat) :=
  if data.length ≤ limitBytes then .ok (data, .original)
  else
    match C.decode data with
    | none => .error "failed to decode image"
    | some (img, format) =>
      if isRasterFormat format then
        match runLadder C img limitBytes qualityLadder with
        | some buf => .ok (buf, .jpeg)
        | none => .ok ((C.encode img 20).1, .jpeg)
      else .ok (data, .original)

/-- What `downloadImage` goes on to write and name after the compression
step. -/
structure SaveOutcome where
  bytes : Bytes
  renamedToJpg : Bool
  warned : Bool
deriving DecidableEq

/-- Embeds lines 227–237 of `downloadImage`: `imageData, err =
compressImage(imageData, limitMB)` overwrites `imageData` with the first
return value even when `err != nil` — and `compressImage` returns `nil` bytes
with every error — so on error the bytes written afterwards are empty, not
the original payload, despite the "saving original" warning; on success the
extension is renamed to `.jpg` when the pre-compression extension was `.png`
or `.gif`. -/
def downloadCompressStep {Img : Type} (C : Codec Img) (data : Bytes)
    (limitBytes : Nat) (ext : String) : SaveOutcome :=
  match compressImage C data limitBytes with
  | .error _ => { bytes := [], renamedToJpg := false, warned := true }
  | .ok (b, _) => { bytes := b, renamedToJpg := ext == ".png" || ext == ".gif", warned := false }

/-! ## Counting and relational helpers for the extractor claims -/

mutual
/-- Number of string leaves of a JSON tree. -/
def numStrings : Json → Nat
  | .str _ => 1
  | .num _ => 0
  | .bool _ => 0
  | .null => 0
  | .arr l => numStringsArr l
  | .obj l => numStringsObj l
termination_by structural t => t

/-- Array clause of `numStrings`. -/
def numStringsArr : JsonArr → Nat
  | .nil => 0
  | .cons v rest => numStrings v + numStringsArr rest
termination_by structural l => l

/-- Object clause of `numStrings`. -/
def numStringsObj : JsonObj → Nat
  | .nil => 0
  | .cons _ v rest => numStrings v + numStringsObj rest
termination_by structural l => l
end

mutual
/-- Maximum number of explicit pattern matches in any single string leaf. -/
def maxMatchCnt : Json → Nat
  | .str s => (findAllMatches s).length
  | .num _ => 0
  | .bool _ => 0
  | .null => 0
  | .arr l => maxMatchCntArr l
  | .obj l => maxMatchCntObj l
termination_by structural t => t

/-- Array clause of `maxMatchCnt`. -/
def maxMatchCntArr : JsonArr → Nat
  | .nil => 0
  | .cons v rest => max (maxMatchCnt v) (maxMatchCntArr rest)
termination_by structural l => l

/-- Object clause of `maxMatchCnt`. -/
def maxMatchCntObj : JsonObj → Nat
  | .nil => 0
  | .cons _ v rest => max (maxMatchCnt v) (maxMatchCntObj rest)
termination_by structural l => l
end

mutual
/-- The tree contains no JSON object node. -/
def noObj : Json → Bool
  | .str _ => true
  | .num _ => true
  | .bool _ => true
  | .null => true
  | .arr l => noObjArr l
  | .obj _ => false
termination_by structural t => t

/-- Array clause of `noObj`. -/
def noObjArr : JsonArr → Bool
  | .nil => true
  | .cons v rest => noObj v && noObjArr rest
termination_by structural l => l
end

/-- Two JSON trees that differ only in the iteration order of object entries:
equal leaves, arrays related pointwise in order, objects related pointwise
after an arbitrary permutation of their entry sequence (generated, as
`List.Perm` is, by adjacent swaps, congruence and transitivity). This models
two runs of `extractImageURLs` whose `range` over the Go map visits keys in
different orders. -/
inductive KeyPerm : Json → Json → Prop where
  | str (s : List Char) : KeyPerm (.str s) (.str s)
  | num (n : Int) : KeyPerm (.num n) (.num n)
  | bool (b : Bool) : KeyPerm (.bool b) (.bool b)
  | null : KeyPerm .null .null
  | arrNil : KeyPerm (.arr .nil) (.arr .nil)
  | arrCons {v₁ v₂ : Json} {l₁ l₂ : JsonArr} :
      KeyPerm v₁ v₂ → KeyPerm (.arr l₁) (.arr l₂) →
      KeyPerm (.arr (.cons v₁ l₁)) (.arr (.cons v₂ l₂))
  | objNil : KeyPerm (.obj .nil) (.obj .nil)
  | objCons (k : List Char) {v₁ v₂ : Json} {l₁ l₂ : JsonObj} :
      KeyPerm v₁ v₂ → KeyPerm (.obj l₁) (.obj l₂) →
      KeyPerm (.obj (.cons k v₁ l₁)) (.obj (.cons k v₂ l₂))
  | objSwap (k₁ : List Char) (v₁ : Json) (k₂ : List Char) (v₂ : Json) (l : JsonObj) :
      KeyPerm (.obj (.cons k₁ v₁ (.cons k₂ v₂ l))) (.obj (.cons k₂ v₂ (.cons k₁ v₁ l)))
  | objTrans {l₁ l₂ l₃ : JsonObj} :
      KeyPerm (.obj l₁) (.obj l₂) → KeyPerm (.obj l₂) (.obj l₃) →
      KeyPerm (.obj l₁) (.obj l₃)

/-- Every URL the extractor emits carries an `http://` or `https://` scheme. -/
def hasScheme (u : List Char) : Bool :=
  startsWithL schemeHttp u || startsWithL schemeHttps u

/-! ## Lemmas about the quality-ladder loop -/

/-- When every encode in the list succeeds, the loop returns the output of the
first quality whose encoded size fits the limit. -/
theorem runLadder_eq_find {Img : Type} (C : Codec Img) (img : Img) (limitBytes : Nat)
    (l : List Nat) (hok : ∀ q ∈ l, (C.encode img q).2 = true) :
    runLadder C img limitBytes l =
      (l.find? fun q => decide ((C.encode img q).1.length ≤ limitBytes)).map
        (fun q => (C.encode img q).1) := by
  induction l with
  | nil => rfl
  | cons q rest ih =>
    have hq : (C.encode img q).2 = true := hok q (by simp)
    by_cases hle : (C.encode img q).1.length ≤ limitBytes
    · simp [runLadder, List.find?, hq, hle]
    · have ih' := ih fun p hp => hok p (by simp [hp])
      simp [runLadder, List.find?, hq, hle, ih']

/-- When no quality in the list both encodes successfully and fits the limit,
the loop falls through. -/
theorem runLadder_none {Img : Type} (C : Codec Img) (img : Img) (limitBytes : Nat)
    (l : List Nat)
    (hno : ∀ q ∈ l, ¬((C.encode img q).2 = true ∧ (C.encode img q).1.length ≤ limitBytes)) :
    runLadder C img limitBytes l = none := by
  induction l with
  | nil => rfl
  | cons q rest ih =>
    have hq := hno q (by simp)
    have ih' := ih fun p hp => hno p (by simp [hp])
    simp [runLadder, hq, ih']

/-! ## Claims about the re-encoder -/

/-- **C4**: whenever the input already fits the budget, `compressImage`
returns the input bytes unchanged with the format unchanged, for every codec
— in particular performing no decode or re-encode at all. -/
theorem compress_within_budget_identity {Img : Type} (C : Codec Img) (data : Bytes)
    (limitBytes : Nat) (h : data.length ≤ limitBytes) :
    compressImage C data limitBytes = .ok (data, .original) := by
  unfold compressImage
  simp [h]

/-- Witness for `compress_within_budget_identity` at a concrete codec and
input. -/
theorem compress_within_budget_identity_witness :
    compressImage (⟨fun _ => none, fun _ _ => ([], false)⟩ : Codec Unit) [1, 2] 5 =
      .ok ([1, 2], .original) :=
  compress_within_budget_identity _ [1, 2] 5 (by decide)

/-- **C2**: on an over-budget input that decodes as jpeg, png or gif, the
ladder `[85, 75, 65, 55, 45, 35, 25]` is walked in that order and the encode
of the first quality whose size fits the budget is returned (assuming the
encodes succeed, as `jpeg.Encode` into a `bytes.Buffer` does). -/
theorem compress_ladder_first_fit {Img : Type} (C : Codec Img) (data : Bytes)
    (limitBytes : Nat) (img : Img) (fmt : String) (q₀ : Nat)
    (hbig : limitBytes < data.length)
    (hdec : C.decode data = some (img, fmt))
    (hfmt : fmt = "jpeg" ∨ fmt = "png" ∨ fmt = "gif")
    (hok : ∀ q ∈ qualityLadder, (C.encode img q).2 = true)
    (hfind : (qualityLadder.find? fun q => decide ((C.encode img q).1.length ≤ limitBytes)) =
      some q₀) :
    compressImage C data limitBytes = .ok ((C.encode img q₀).1, .jpeg) := by
  have hr : isRasterFormat fmt = true := by
    rcases hfmt with h | h | h <;> simp [h, isRasterFormat]
  unfold compressImage
  rw [if_neg (by omega), hdec]
  simp only [hr, if_true]
  rw [runLadder_eq_find C img limitBytes qualityLadder hok, hfind]
  rfl

/-- Witness for `compress_ladder_first_fit`: sizes are the quality itself, so
with budget 60 the first fitting quality is 55. -/
theorem compress_ladder_first_fit_witness :
    compressImage
        (⟨fun _ => some ((), "jpeg"), fun _ q => (List.replicate q 0, true)⟩ : Codec Unit)
        (List.replicate 100 7) 60 =
      .ok (List.replicate 55 0, .jpeg) :=
  compress_ladder_first_fit _ _ 60 () "jpeg" 55 (by decide) rfl (Or.inl rfl)
    (by decide) (by decide)

/-- A codec whose every encode fails, writing nothing into the buffer. -/
def allFailCodec : Codec Unit :=
  ⟨fun _ => some ((), "png"), fun _ _ => ([], false)⟩

/-- **C3, counterexample**: when even the final quality-20 encode fails, the
code does *not* fall back to "no compression applied"/the original bytes: it
returns the (here empty) buffer with a nil error, the caller keeps those
bytes and renames the file. -/
theorem compress_final_encode_failure_cex :
    (allFailCodec.encode () 20).2 = false ∧
    compressImage allFailCodec [1, 2, 3, 4] 2 = .ok ([], .jpeg) ∧
    (downloadCompressStep allFailCodec [1, 2, 3, 4] 2 ".png").bytes ≠ [1, 2, 3, 4] ∧
    (downloadCompressStep allFailCodec [1, 2, 3, 4] 2 ".png").renamedToJpg = true :=
  ⟨rfl, rfl, by decide, rfl⟩

/-- **C3, amended**: if no ladder level both encodes successfully and fits the
budget, `compressImage` returns the quality-20 encode's buffer with a nil
error, unconditionally — even when the budget is still exceeded and even when
that final encode itself failed (its error is discarded, so the caller never
falls back to the original bytes on this path). -/
theorem compress_final_quality20_unconditional {Img : Type} (C : Codec Img)
    (data : Bytes) (limitBytes : Nat) (img : Img) (fmt : String)
    (hbig : limitBytes < data.length)
    (hdec : C.decode data = some (img, fmt))
    (hfmt : isRasterFormat fmt = true)
    (hno : ∀ q ∈ qualityLadder,
      ¬((C.encode img q).2 = true ∧ (C.encode img q).1.length ≤ limitBytes)) :
    compressImage C data limitBytes = .ok ((C.encode img 20).1, .jpeg) := by
  unfold compressImage
  rw [if_neg (by omega), hdec]
  simp only [hfmt, if_true]
  rw [runLadder_none C img limitBytes qualityLadder hno]

/-- Witness for `compress_final_quality20_unconditional` at a concrete codec
whose encodes all fail. -/
theorem compress_final_quality20_unconditional_witness :
    compressImage allFailCodec [9, 9, 9] 1 = .ok ([], .jpeg) :=
  compress_final_quality20_unconditional allFailCodec [9, 9, 9] 1 () "png"
    (by decide) rfl (by decide) (by decide)

/-- **C5**: a png input over the budget always comes back as a successful
JPEG re-encode — never as png — whether the budget is reachable or not, and
the caller's compression step then renames the `.png` extension to `.jpg`. -/
theorem compress_png_reports_jpeg {Img : Type} (C : Codec Img) (data : Bytes)
    (limitBytes : Nat) (img : Img)
    (hbig : limitBytes < data.length)
    (hdec : C.decode data = some (img, "png")) :
    (∃ b, compressImage C data limitBytes = .ok (b, .jpeg)) ∧
    (downloadCompressStep C data limitBytes ".png").renamedToJpg = true := by
  have hmain : ∃ b, compressImage C data limitBytes = .ok (b, .jpeg) := by
    unfold compressImage
    rw [if_neg (by omega), hdec]
    have hr : isRasterFormat "png" = true := by decide
    simp only [hr, if_true]
    cases runLadder C img limitBytes qualityLadder with
    | some buf => exact ⟨buf, rfl⟩
    | none => exact ⟨(C.encode img 20).1, rfl⟩
  refine ⟨hmain, ?_⟩
  obtain ⟨b, hb⟩ := hmain
  unfold downloadCompressStep
  rw [hb]
  rfl

/-- Witness for `compress_png_reports_jpeg` at a codec whose encodes never
fit, so the final-quality path is taken — the format is still jpeg. -/
theorem compress_png_reports_jpeg_witness :
    (∃ b, compressImage
        (⟨fun _ => some ((), "png"), fun _ _ => ([7, 7, 7], true)⟩ : Codec Unit)
        [1, 2, 3] 2 = .ok (b, .jpeg)) ∧
    (downloadCompressStep
        (⟨fun _ => some ((), "png"), fun _ _ => ([7, 7, 7], true)⟩ : Codec Unit)
        [1, 2, 3] 2 ".png").renamedToJpg = true :=
  compress_png_reports_jpeg _ [1, 2, 3] 2 () (by decide) rfl

/-- **C6**: an over-budget payload that does not decode makes `compressImage`
fail with the decode error, and the caller then writes *empty* bytes (the
original is clobbered by `imageData, err = compressImage(...)` returning
`nil`), contradicting its own "saving original" warning — the concrete
evaluation exhibiting the code bug. -/
theorem compress_decode_failure_clobbers_original :
    compressImage (⟨fun _ => none, fun _ _ => ([], true)⟩ : Codec Unit) [9, 9, 9] 1 =
      .error "failed to decode image" ∧
    downloadCompressStep (⟨fun _ => none, fun _ _ => ([], true)⟩ : Codec Unit) [9, 9, 9] 1
        ".bin" =
      { bytes := [], renamedToJpg := false, warned := true } ∧
    ([] : Bytes) ≠ [9, 9, 9] :=
  ⟨rfl, rfl, by decide⟩

/-- **C10**: `compressImage` errors exactly when the input is over budget and
the decode fails; a failed encode at a ladder level is skipped; and when the
whole ladder falls through, the quality-20 buffer is returned with a nil
error no matter whether that encode succeeded. -/
theorem compress_error_iff_decode_failure {Img : Type} (C : Codec Img) (data : Bytes)
    (limitBytes : Nat) :
    ((∃ e, compressImage C data limitBytes = .error e) ↔
      (limitBytes < data.length ∧ C.decode data = none)) ∧
    (∀ (img : Img) (q : Nat) (qs : List Nat), (C.encode img q).2 = false →
      runLadder C img limitBytes (q :: qs) = runLadder C img limitBytes qs) ∧
    (∀ (img : Img) (fmt : String), limitBytes < data.length →
      C.decode data = some (img, fmt) → isRasterFormat fmt = true →
      runLadder C img limitBytes qualityLadder = none →
      compressImage C data limitBytes = .ok ((C.encode img 20).1, .jpeg)) := by
  refine ⟨?_, ?_, ?_⟩
  · constructor
    · rintro ⟨e, he⟩
      unfold compressImage at he
      by_cases hle : data.length ≤ limitBytes
      · rw [if_pos hle] at he; exact absurd he (by simp)
      · rw [if_neg hle] at he
        refine ⟨by omega, ?_⟩
        cases hd : C.decode data with
        | none => rfl
        | some p =>
          rw [hd] at he
          by_cases hr : isRasterFormat p.2 = true
          · simp only [hr, if_true] at he
            cases hrl : runLadder C p.1 limitBytes qualityLadder <;> simp [hrl] at he
          · simp only [hr, if_false] at he
            exact absurd he (by simp)
    · rintro ⟨hbig, hdec⟩
      refine ⟨"failed to decode image", ?_⟩
      unfold compressImage
      rw [if_neg (by omega), hdec]
  · intro img q qs hfail
    simp [runLadder, hfail]
  · intro img fmt hbig hdec hr hlad
    unfold compressImage
    rw [if_neg (by omega), hdec]
    simp only [hr, if_true]
    rw [hlad]

/-- A codec that never decodes. -/
def noDecodeCodec : Codec Unit := ⟨fun _ => none, fun _ _ => ([], true)⟩

/-- A codec that decodes to png but whose every encode fails with a non-empty
partial buffer. -/
def pngFailCodec : Codec Unit := ⟨fun _ => some ((), "png"), fun _ _ => ([0, 0], false)⟩

/-- Witness for `compress_error_iff_decode_failure`: the error case, the
skip-on-failed-encode case, and the discarded final error, all at concrete
codecs. -/
theorem compress_error_iff_decode_failure_witness :
    (∃ e, compressImage noDecodeCodec [5, 5] 1 = .error e) ∧
    runLadder pngFailCodec () 1 (85 :: [75]) = runLadder pngFailCodec () 1 [75] ∧
    compressImage pngFailCodec [5, 5] 1 = .ok ((pngFailCodec.encode () 20).1, .jpeg) := by
  obtain ⟨h1, _, _⟩ := compress_error_iff_decode_failure noDecodeCodec [5, 5] 1
  obtain ⟨_, h2, h3⟩ := compress_error_iff_decode_failure pngFailCodec [5, 5] 1
  exact ⟨h1.mpr ⟨by decide, rfl⟩, h2 () 85 [75] rfl,
    h3 () "png" (by decide) rfl (by decide) rfl⟩

/-! ## Claims about the extractor -/

/-- With zero explicit matches, the heuristic reduces to the prefix test, the
URL-parse test and the keyword test in conjunction (the `MatchString` branch
cannot fire). -/
theorem isPossible_of_no_matches (s : List Char) (h : (findAllMatches s).isEmpty = true) :
    isPossibleImageURL s =
      ((startsWithL schemeHttp s || startsWithL schemeHttps s) &&
        (urlParseOk s && hasKeyword s)) := by
  unfold isPossibleImageURL matchString
  rw [h]
  cases h1 : startsWithL schemeHttp s <;> cases h2 : startsWithL schemeHttps s <;>
    cases h3 : urlParseOk s <;> simp [h1, h2, h3]

/-- **C7, counterexample**: the stated bound (string leaves times maximum
explicit-match count) fails on a tree whose single string has zero explicit
matches but fires the heuristic fallback: the output has length 1 while the
bound is 0. -/
theorem extract_bound_cex :
    ¬((extract (Json.str "http://img".data)).length ≤
        numStrings (Json.str "http://img".data) *
          maxMatchCnt (Json.str "http://img".data)) := by
  decide

mutual
/-- **C7, amended**: `extract` is total by construction and its output length
is bounded by the number of string leaves times `max 1 m` where `m` is the
maximum explicit-match count of any single string (the `max` with 1 accounts
for heuristic-fallback strings, which contribute one candidate despite zero
explicit matches). -/
theorem extract_length_bound (t : Json) :
    (extract t).length ≤ numStrings t * max 1 (maxMatchCnt t) := by
  cases t with
  | str s =>
    show (extractStr s).length ≤ 1 * max 1 ((findAllMatches s).length)
    rw [Nat.one_mul]
    unfold extractStr
    cases he : (findAllMatches s).isEmpty
    · simp [he]
    · rw [List.isEmpty_iff.mp he]
      split <;> simp
  | num n => simp [extract, numStrings]
  | bool b => simp [extract, numStrings]
  | null => simp [extract, numStrings]
  | arr l =>
    show (extractArr l).length ≤ numStringsArr l * max 1 (maxMatchCntArr l)
    exact extractArr_length_bound l
  | obj l =>
    show (extractObj l).length ≤ numStringsObj l * max 1 (maxMatchCntObj l)
    exact extractObj_length_bound l

/-- Array clause of the amended C7 bound. -/
theorem extractArr_length_bound (l : JsonArr) :
    (extractArr l).length ≤ numStringsArr l * max 1 (maxMatchCntArr l) := by
  cases l with
  | nil => simp [extractArr, numStringsArr]
  | cons v rest =>
    have h1 := extract_length_bound v
    have h2 := extractArr_length_bound rest
    have hm1 : max 1 (maxMatchCnt v) ≤ max 1 (max (maxMatchCnt v) (maxMatchCntArr rest)) :=
      max_le_max (le_refl 1) (le_max_left _ _)
    have hm2 : max 1 (maxMatchCntArr rest) ≤ max 1 (max (maxMatchCnt v) (maxMatchCntArr rest)) :=
      max_le_max (le_refl 1) (le_max_right _ _)
    show (extract v ++ extractArr rest).length ≤
      (numStrings v + numStringsArr rest) *
        max 1 (max (maxMatchCnt v) (maxMatchCntArr rest))
    rw [List.length_append, Nat.add_mul]
    exact Nat.add_le_add (h1.trans (Nat.mul_le_mul_left _ hm1))
      (h2.trans (Nat.mul_le_mul_left _ hm2))

/-- Object clause of the amended C7 bound. -/
theorem extractObj_length_bound (l : JsonObj) :
    (extractObj l).length ≤ numStringsObj l * max 1 (maxMatchCntObj l) := by
  cases l with
  | nil => simp [extractObj, numStringsObj]
  | cons k v rest =>
    have h1 := extract_length_bound v
    have h2 := extractObj_length_bound rest
    have hm1 : max 1 (maxMatchCnt v) ≤ max 1 (max (maxMatchCnt v) (maxMatchCntObj rest)) :=
      max_le_max (le_refl 1) (le_max_left _ _)
    have hm2 : max 1 (maxMatchCntObj rest) ≤ max 1 (max (maxMatchCnt v) (maxMatchCntObj rest)) :=
      max_le_max (le_refl 1) (le_max_right _ _)
    show (extract v ++ extractObj rest).length ≤
      (numStrings v + numStringsObj rest) *
        max 1 (max (maxMatchCnt v) (maxMatchCntObj rest))
    rw [List.length_append, Nat.add_mul]
    exact Nat.add_le_add (h1.trans (Nat.mul_le_mul_left _ hm1))
      (h2.trans (Nat.mul_le_mul_left _ hm2))
end

/-- A prefix check survives truncation to at least the prefix length. -/
theorem startsWithL_take (p : List Char) :
    ∀ (cs : List Char) (n : Nat), startsWithL p cs = true → p.length ≤ n →
      startsWithL p (cs.take n) = true := by
  induction p with
  | nil => intro cs n _ _; rfl
  | cons a ps ih =>
    intro cs n h hn
    cases cs with
    | nil => exact absurd h (by simp [startsWithL])
    | cons c cs' =>
      cases n with
      | zero => exact absurd hn (by simp)
      | succ n' =>
        simp only [List.take_succ_cons]
        simp only [startsWithL, Bool.and_eq_true] at h ⊢
        refine ⟨h.1, ih cs' n' h.2 ?_⟩
        simp only [List.length_cons] at hn
        omega

/-- A match of the full pattern starts with one of the two schemes. -/
theorem matchAt_hasScheme (cs : List Char) (n : Nat) (h : matchAt cs = some n) :
    hasScheme (cs.take n) = true := by
  unfold matchAt at h
  by_cases h8 : startsWithL schemeHttps cs = true
  · rw [if_pos h8] at h
    cases hx : matchPlusBody (cs.drop 8) with
    | none => rw [hx] at h; exact absurd h (by simp)
    | some m =>
      rw [hx] at h
      have hn : m + 8 = n := by simpa using h
      subst hn
      have hp : startsWithL schemeHttps (cs.take (m + 8)) = true := by
        refine startsWithL_take schemeHttps cs (m + 8) h8 ?_
        have hl : schemeHttps.length = 8 := by decide
        omega
      unfold hasScheme
      rw [hp, Bool.or_true]
  · rw [if_neg h8] at h
    by_cases h7 : startsWithL schemeHttp cs = true
    · rw [if_pos h7] at h
      cases hx : matchPlusBody (cs.drop 7) with
      | none => rw [hx] at h; exact absurd h (by simp)
      | some m =>
        rw [hx] at h
        have hn : m + 7 = n := by simpa using h
        subst hn
        have hp : startsWithL schemeHttp (cs.take (m + 7)) = true := by
          refine startsWithL_take schemeHttp cs (m + 7) h7 ?_
          have hl : schemeHttp.length = 7 := by decide
          omega
        unfold hasScheme
        rw [hp, Bool.true_or]
    · rw [if_neg h7] at h
      exact absurd h (by simp)

/-- Every string the scan collects is a pattern match, hence scheme-prefixed. -/
theorem findAllAux_scheme :
    ∀ (fuel : Nat) (cs u : List Char), u ∈ findAllAux fuel cs → hasScheme u = true := by
  intro fuel
  induction fuel with
  | zero => intro cs u h; exact absurd h (by simp [findAllAux])
  | succ f ih =>
    intro cs u h
    cases cs with
    | nil => exact absurd h (by simp [findAllAux])
    | cons c rest =>
      cases hm : matchAt (c :: rest) with
      | some n =>
        simp only [findAllAux, hm] at h
        rcases List.mem_cons.mp h with rfl | h'
        · exact matchAt_hasScheme _ n hm
        · exact ih _ u h'
      | none =>
        simp only [findAllAux, hm] at h
        exact ih rest u h

/-- String-leaf case of the scheme invariant: both the explicit matches and
the heuristic fallback only emit scheme-prefixed strings (the fallback checks
the prefix before anything else). -/
theorem extractStr_scheme (s u : List Char) (h : u ∈ extractStr s) :
    hasScheme u = true := by
  unfold extractStr at h
  rcases List.mem_append.mp h with h1 | h2
  · exact findAllAux_scheme _ _ u h1
  · by_cases hc : ((findAllMatches s).isEmpty && isPossibleImageURL s) = true
    · rw [if_pos hc] at h2
      have hu : u = s := by simpa using h2
      subst hu
      rw [Bool.and_eq_true] at hc
      obtain ⟨he, hp⟩ := hc
      rw [isPossible_of_no_matches u he, Bool.and_eq_true] at hp
      unfold hasScheme
      exact hp.1
    · rw [if_neg hc] at h2
      exact absurd h2 (by simp)

mutual
/-- Scheme invariant over whole trees. -/
theorem extract_scheme (t : Json) : ∀ u ∈ extract t, hasScheme u = true := by
  cases t with
  | str s => intro u hu; exact extractStr_scheme s u hu
  | num n => intro u hu; exact absurd hu (List.not_mem_nil u)
  | bool b => intro u hu; exact absurd hu (List.not_mem_nil u)
  | null => intro u hu; exact absurd hu (List.not_mem_nil u)
  | arr l => exact extractArr_scheme l
  | obj l => exact extractObj_scheme l

/-- Array clause of the scheme invariant. -/
theorem extractArr_scheme (l : JsonArr) : ∀ u ∈ extractArr l, hasScheme u = true := by
  cases l with
  | nil => intro u hu; exact absurd hu (List.not_mem_nil u)
  | cons v rest =>
    intro u hu
    have hu' : u ∈ extract v ++ extractArr rest := hu
    rcases List.mem_append.mp hu' with h1 | h2
    · exact extract_scheme v u h1
    · exact extractArr_scheme rest u h2

/-- Object clause of the scheme invariant. -/
theorem extractObj_scheme (l : JsonObj) : ∀ u ∈ extractObj l, hasScheme u = true := by
  cases l with
  | nil => intro u hu; exact absurd hu (List.not_mem_nil u)
  | cons k v rest =>
    intro u hu
    have hu' : u ∈ extract v ++ extractObj rest := hu
    rcases List.mem_append.mp hu' with h1 | h2
    · exact extract_scheme v u h1
    · exact extractObj_scheme rest u h2
end

/-- **C9**: every string the extractor appends begins with `http://` or
`https://` — explicit matches by construction of the pattern, fallback
strings because the prefix test precedes every other heuristic check. -/
theorem extract_all_have_scheme (t : Json) (u : List Char) (h : u ∈ extract t) :
    hasScheme u = true :=
  extract_scheme t u h

/-- Witness for `extract_all_have_scheme` on a concrete tree. -/
theorem extract_all_have_scheme_witness :
    "https://a.png".data ∈ extract (Json.str "https://a.png".data) ∧
      hasScheme "https://a.png".data = true :=
  ⟨by decide, extract_all_have_scheme (Json.str "https://a.png".data) _ (by decide)⟩

/-- **C8**: two traversals of the same JSON tree that differ only in object
key order (related by `KeyPerm`) produce URL lists that are permutations of
each other, and when the tree contains no objects the lists are identical. -/
theorem extract_keyperm (t₁ t₂ : Json) (h : KeyPerm t₁ t₂) :
    (extract t₁).Perm (extract t₂) ∧ (noObj t₁ = true → extract t₁ = extract t₂) := by
  induction h with
  | str s => exact ⟨List.Perm.refl _, fun _ => rfl⟩
  | num n => exact ⟨List.Perm.refl _, fun _ => rfl⟩
  | bool b => exact ⟨List.Perm.refl _, fun _ => rfl⟩
  | null => exact ⟨List.Perm.refl _, fun _ => rfl⟩
  | arrNil => exact ⟨List.Perm.refl _, fun _ => rfl⟩
  | objNil => exact ⟨List.Perm.refl _, fun _ => rfl⟩
  | arrCons hv hl ihv ihl =>
    obtain ⟨ihv1, ihv2⟩ := ihv
    obtain ⟨ihl1, ihl2⟩ := ihl
    simp only [extract] at ihl1 ihl2
    simp only [noObj] at ihl2
    constructor
    · simp only [extract, extractArr]
      exact List.Perm.append ihv1 ihl1
    · intro hno
      simp only [noObj, noObjArr, Bool.and_eq_true] at hno
      simp only [extract, extractArr]
      rw [ihv2 hno.1, ihl2 hno.2]
  | objCons k hv hl ihv ihl =>
    obtain ⟨ihv1, _⟩ := ihv
    obtain ⟨ihl1, _⟩ := ihl
    simp only [extract] at ihl1
    constructor
    · simp only [extract, extractObj]
      exact List.Perm.append ihv1 ihl1
    · intro hno
      exact absurd hno (by simp [noObj])
  | objSwap k₁ v₁ k₂ v₂ l =>
    constructor
    · simp only [extract, extractObj]
      exact List.perm_append_comm_assoc _ _ _
    · intro hno
      exact absurd hno (by simp [noObj])
  | objTrans h₁ h₂ ih₁ ih₂ =>
    refine ⟨ih₁.1.trans ih₂.1, fun hno => absurd hno (by simp [noObj])⟩

/-- First tree of the C8 witness: `{"a": "https://a.png", "b": "https://b.jpg"}`
in one key order. -/
def objInOrder : Json :=
  Json.obj (JsonObj.cons "a".data (Json.str "https://a.png".data)
    (JsonObj.cons "b".data (Json.str "https://b.jpg".data) JsonObj.nil))

/-- The same object with its two entries visited in the other order. -/
def objSwapped : Json :=
  Json.obj (JsonObj.cons "b".data (Json.str "https://b.jpg".data)
    (JsonObj.cons "a".data (Json.str "https://a.png".data) JsonObj.nil))

/-- Witness for `extract_keyperm` on a concrete two-key object. -/
theorem extract_keyperm_witness :
    (extract objInOrder).Perm (extract objSwapped) ∧
      (noObj objInOrder = true → extract objInOrder = extract objSwapped) :=
  extract_keyperm objInOrder objSwapped (KeyPerm.objSwap _ _ _ _ _)
